import Mathlib

/-!
Shallow embedding of `src/wave_graph_grammar_core.py` (Wave-Graph Grammar-Core).

Modelling conventions:
* Python `dict` (insertion ordered, overwrite keeps position) is an association
  list `List (String × β)` with `dictSet` for assignment.
* Python floats are modelled as exact numbers: stored polarities as `ℚ`;
  `math.tanh` is an abstract function `ℝ → ℝ` parameter where the fold shape is
  at stake, instantiated with `Real.tanh` where the bound [-1,1] is at stake.
* The shared pseudo-random stream (`random.seed` / `random.choice`) is an
  explicit stream `ρ : Nat → Nat` plus a position counter: the n-th call of
  `random.choice seq` returns `seq[ρ n % seq.length]`.  Seeding with the same
  seed fixes the same stream, so a seeded generator corresponds to a fixed
  `ρ` consumed from position 0.
* Python recursion (`_expand`) is unbounded; the embedding uses a fuel
  parameter, with `ExpandErr.outOfFuel` marking computations that have not
  finished within the given depth.  Termination of the source corresponds to
  success at some finite fuel.
-/

namespace WGG

/-- Python str.lower of the source, as the character-wise map (the inputs in
this program are ASCII, where the two agree); stated over the character list
so that it evaluates by kernel reduction. -/
def strLower (s : String) : String := String.mk (s.data.map Char.toLower)

/-- Python str.upper of the source, as the character-wise map. -/
def strUpper (s : String) : String := String.mk (s.data.map Char.toUpper)

/-- LexEntry from the source: part-of-speech tag and polarity. -/
structure LexEntry where
  pos : String
  polarity : ℚ
deriving DecidableEq, Repr

/-- Python dict assignment `d[k] = v` on an insertion-ordered association
list: overwrite in place if the key is present, append otherwise. -/
def dictSet {β : Type} : List (String × β) → String → β → List (String × β)
  | [], k, v => [(k, v)]
  | (k', v') :: rest, k, v =>
      if k' = k then (k, v) :: rest else (k', v') :: dictSet rest k v

/-- Lexicon: word → LexEntry, insertion-ordered mapping. -/
structure Lexicon where
  entries : List (String × LexEntry)
deriving DecidableEq, Repr

/-- Lexicon.add: normalizes word to lowercase and pos to uppercase, stores or
overwrites. -/
def Lexicon.add (lex : Lexicon) (word : String) (pos : String) (polarity : ℚ) : Lexicon :=
  ⟨dictSet lex.entries (strLower word) ⟨strUpper pos, polarity⟩⟩

/-- Lexicon.get: case-insensitive lookup. -/
def Lexicon.get (lex : Lexicon) (word : String) : Option LexEntry :=
  lex.entries.lookup (strLower word)

/-- Lexicon.words_for_pos: all words whose entry has the (uppercased) tag, in
stored order. -/
def Lexicon.words_for_pos (lex : Lexicon) (pos : String) : List String :=
  (lex.entries.filter (fun we => we.2.pos = strUpper pos)).map (fun we => we.1)

/-- The seed lexicon built by Lexicon.__init__, in source order. -/
def seedLexicon : Lexicon :=
  ⟨[("the", ⟨"DET", 0⟩), ("a", ⟨"DET", 0⟩), ("an", ⟨"DET", 0⟩),
    ("cat", ⟨"NOUN", 0.2⟩), ("dog", ⟨"NOUN", 0.3⟩), ("child", ⟨"NOUN", 0.4⟩),
    ("war", ⟨"NOUN", -0.9⟩), ("love", ⟨"NOUN", 0.9⟩),
    ("see", ⟨"VERB", 0⟩), ("like", ⟨"VERB", 0.6⟩), ("chase", ⟨"VERB", -0.1⟩),
    ("hate", ⟨"VERB", -0.7⟩), ("adore", ⟨"VERB", 0.8⟩),
    ("happy", ⟨"ADJ", 0.8⟩), ("sad", ⟨"ADJ", -0.6⟩), ("brave", ⟨"ADJ", 0.5⟩),
    ("angry", ⟨"ADJ", -0.5⟩)]⟩

/-- Morphology.VOWELS. -/
def VOWELS : List Char := ['a', 'e', 'i', 'o', 'u']

/-- Morphology.pluralize. -/
def pluralize (noun : String) : String :=
  if noun.endsWith "y" && noun.length > 1 &&
      !(VOWELS.contains (noun.data.getD (noun.length - 2) ' ')) then
    String.mk (noun.data.take (noun.length - 1)) ++ "ies"
  else if noun.endsWith "s" || noun.endsWith "x" || noun.endsWith "z" ||
      noun.endsWith "ch" || noun.endsWith "sh" then
    noun ++ "es"
  else
    noun ++ "s"

/-- Morphology.third_person_singular. -/
def third_person_singular (verb_base : String) : String :=
  if verb_base.endsWith "y" && verb_base.length > 1 &&
      !(VOWELS.contains (verb_base.data.getD (verb_base.length - 2) ' ')) then
    String.mk (verb_base.data.take (verb_base.length - 1)) ++ "ies"
  else if verb_base.endsWith "s" || verb_base.endsWith "x" || verb_base.endsWith "z" ||
      verb_base.endsWith "ch" || verb_base.endsWith "sh" then
    verb_base ++ "es"
  else
    verb_base ++ "s"

/-- Morphology.past_tense. -/
def past_tense (verb_base : String) : String :=
  if verb_base.endsWith "e" then
    verb_base ++ "d"
  else if verb_base.endsWith "y" && verb_base.length > 1 &&
      !(VOWELS.contains (verb_base.data.getD (verb_base.length - 2) ' ')) then
    String.mk (verb_base.data.take (verb_base.length - 1)) ++ "ied"
  else
    verb_base ++ "ed"

/-- A grammar symbol as it appears in a rule right-hand side.  In the source a
symbol is a Python value: a string (`str s`), a tuple like ("<NOUN>", \x7b\x7d)
(`slot tag attrs`), or — for a malformed grammar — a value of any other type
(`other`), which _expand rejects with ValueError. -/
inductive Symbol : Type where
  | str (s : String)
  | slot (tag : String) (attrs : List (String × String))
  | other
deriving DecidableEq, Repr

/-- Rule: left-hand side plus the list of alternative expansions. -/
structure Rule where
  lhs : String
  rhs : List (List Symbol)
deriving DecidableEq, Repr

/-- Grammar: nonterminal → Rule, plus the start symbol. -/
structure Grammar where
  rules : List (String × Rule)
  start : String
deriving DecidableEq, Repr

/-- Grammar.add_rule. -/
def Grammar.add_rule (g : Grammar) (lhs : String) (rhs : List (List Symbol)) : Grammar :=
  ⟨dictSet g.rules lhs ⟨lhs, rhs⟩, g.start⟩

/-- Rule lookup in the grammar mapping. -/
def Grammar.lookupRule (g : Grammar) (nt : String) : Option Rule :=
  g.rules.lookup nt

/-- Grammar.has: membership test used to distinguish nonterminals from
terminals. -/
def Grammar.has (g : Grammar) (nt : String) : Bool :=
  (g.lookupRule nt).isSome

/-- The rule table of Grammar._seed_rules, one entry per add_rule call, in
source order. -/
def seedRuleList : List (String × List (List Symbol)) :=
  [("S", [[.str "CLAUSE"], [.str "Q"], [.str "IMP"]]),
   ("CLAUSE", [[.str "NP", .str "VP"], [.str "NP", .str "VP", .str "PP"]]),
   ("NP", [[.str "DET", .str "N"], [.str "DET", .str "ADJ", .str "N"], [.str "N"]]),
   ("VP", [[.str "V", .str "NP"], [.str "V"], [.str "V", .str "ADJ"]]),
   ("PP", [[.str "P", .str "NP"]]),
   ("Q", [[.str "AUX", .str "NP", .str "V", .str "NP", .str "?"],
          [.str "WH", .str "V", .str "NP", .str "?"]]),
   ("IMP", [[.str "V", .str "NP"], [.str "V"]]),
   ("DET", [[.slot "<DET>" []]]),
   ("N", [[.slot "<NOUN>" []]]),
   ("V", [[.slot "<VERB>" []]]),
   ("ADJ", [[.slot "<ADJ>" []]]),
   ("P", [[.slot "<P>" []]]),
   ("AUX", [[.slot "<AUX>" []]]),
   ("WH", [[.slot "<WH>" []]]),
   ("?", [[.str "?"]])]

/-- The seed grammar built by Grammar.__init__ / Grammar._seed_rules: the
add_rule calls applied in source order, start symbol "S". -/
def seedGrammar : Grammar :=
  seedRuleList.foldl (fun g r => g.add_rule r.1 r.2) ⟨[], "S"⟩

/-- EmotionField: a single valence value.  The source stores a Python float;
the model uses ℝ. -/
structure EmotionField where
  valence : ℝ

/-- EmotionField.combine: tanh of the sum of the two valences.  `tanh` is
passed explicitly (the source calls math.tanh). -/
def EmotionField.combine (tanh : ℝ → ℝ) (self other : EmotionField) : EmotionField :=
  ⟨tanh (self.valence + other.valence)⟩

/-- EmotionField.from_word: the looked-up polarity, or 0.0 when the word is
absent from the lexicon. -/
def EmotionField.from_word (word : String) (lex : Lexicon) : EmotionField :=
  ⟨((match lex.get word with
     | some e => e.polarity
     | none => 0) : ℚ)⟩

/-- DerivationNode: symbol, children, and the resolved token for leaves. -/
inductive DerivationNode : Type where
  | mk (symbol : String) (children : List DerivationNode) (token : Option String)

/-- The symbol field of a DerivationNode. -/
def DerivationNode.symbol : DerivationNode → String
  | .mk s _ _ => s

/-- The token field of a DerivationNode. -/
def DerivationNode.token : DerivationNode → Option String
  | .mk _ _ t => t

/-- An apostrophe, kept out of string literals. -/
def apos : String := String.singleton (Char.ofNat 39)

/-- The "  " * indent padding of DerivationNode.pretty. -/
def pad (indent : Nat) : String := String.mk (List.replicate (2 * indent) ' ')

/-- DerivationNode.pretty, run over a list of nodes at the given indent.  The
source recurses on the (always finite) tree; the embedding adds a depth fuel:
`prettyList (fuel+1)` prints a node at the head and its subtree up to depth
fuel, so for any tree the output stabilises once fuel exceeds the depth. -/
def prettyList : Nat → Nat → List DerivationNode → String
  | 0, _, _ => ""
  | _ + 1, _, [] => ""
  | fuel + 1, indent, node :: rest =>
      (match node with
       | .mk sym _ (some tok) => pad indent ++ sym ++ " → " ++ apos ++ tok ++ apos ++ "\n"
       | .mk sym children none =>
           pad indent ++ sym ++ "\n" ++ prettyList fuel (indent + 1) children)
      ++ prettyList fuel indent rest

/-- DerivationNode.pretty at indent 0 with the given depth fuel. -/
def pretty (fuel : Nat) (t : DerivationNode) : String :=
  prettyList fuel 0 [t]

/-- The functional_words closed-class table of SentenceGenerator.__init__. -/
def functional_words : List (String × List String) :=
  [("<P>", ["with", "without", "near", "against"]),
   ("<AUX>", ["does", "did", "will"]),
   ("<WH>", ["why", "how", "what", "who"])]

/-- Python `random.choice seq` on the modelled stream: one draw, returning
`seq[ρ idx % seq.length]` and the advanced position. -/
def randChoice (ρ : Nat → Nat) (idx : Nat) (l : List String) : String × Nat :=
  (l.getD (ρ idx % l.length) "", idx + 1)

/-- Python `lst or dflt`: dflt when lst is empty, lst otherwise. -/
def orElse {α : Type} (l dflt : List α) : List α :=
  match l with
  | [] => dflt
  | _ => l

/-- SentenceGenerator._choose_for_pos.  Returns the chosen word and the new
stream position (known slots consume exactly one draw; the unknown-slot
fallback returns "" without drawing). -/
def choose_for_pos (lex : Lexicon) (ρ : Nat → Nat) (idx : Nat) (slot : String) :
    String × Nat :=
  match functional_words.lookup slot with
  | some ws => randChoice ρ idx ws
  | none =>
      if slot = "<DET>" then randChoice ρ idx ["the", "a", "an"]
      else if slot = "<NOUN>" then randChoice ρ idx (orElse (lex.words_for_pos "NOUN") ["cat"])
      else if slot = "<VERB>" then randChoice ρ idx (orElse (lex.words_for_pos "VERB") ["see"])
      else if slot = "<ADJ>" then randChoice ρ idx (orElse (lex.words_for_pos "ADJ") ["happy"])
      else ("", idx)

/-- Errors of the modelled expansion: outOfFuel marks recursion deeper than
the fuel (the source has no such bound and would recurse further);
emptyAlternatives is the IndexError of random.choice on an empty sequence;
unknownSymbolType is the ValueError raised on a malformed symbol. -/
inductive ExpandErr : Type where
  | outOfFuel
  | emptyAlternatives
  | unknownSymbolType
deriving DecidableEq, Repr

/-- SentenceGenerator._expand, over a sequence of symbols (the source's
per-alternative for-loop), with explicit depth fuel and stream position.
For each symbol in order: a tuple slot resolves via choose_for_pos, a string
is expanded recursively (a leaf when the grammar has no rule for it), and any
other value raises ValueError.  Yields the derivation nodes (one per symbol),
the concatenated token yield, and the new stream position. -/
def expandList (g : Grammar) (lex : Lexicon) (ρ : Nat → Nat) :
    Nat → List Symbol → Nat → Except ExpandErr (List DerivationNode × List String × Nat)
  | 0, _, _ => .error .outOfFuel
  | _ + 1, [], idx => .ok ([], [], idx)
  | fuel + 1, sym :: rest, idx =>
      match sym with
      | .slot tag _ =>
          let wi := choose_for_pos lex ρ idx tag
          (match expandList g lex ρ fuel rest wi.2 with
           | .error e => .error e
           | .ok (nodes, toks, idx2) =>
               .ok (.mk tag [] (some wi.1) :: nodes, wi.1 :: toks, idx2))
      | .str s =>
          (match g.lookupRule s with
           | none =>
               (match expandList g lex ρ fuel rest idx with
                | .error e => .error e
                | .ok (nodes, toks, idx2) =>
                    .ok (.mk s [] (some s) :: nodes, s :: toks, idx2))
           | some r =>
               (match r.rhs with
                | [] => .error .emptyAlternatives
                | _ =>
                    let choice := r.rhs.getD (ρ idx % r.rhs.length) []
                    (match expandList g lex ρ fuel choice (idx + 1) with
                     | .error e => .error e
                     | .ok (children, toks, idx2) =>
                         (match expandList g lex ρ fuel rest idx2 with
                          | .error e => .error e
                          | .ok (nodes, toks2, idx3) =>
                              .ok (.mk s children none :: nodes,
                                   toks ++ toks2, idx3)))))
      | .other => .error .unknownSymbolType

/-- SentenceGenerator._expand on a single symbol string, as called from
generate().  expandList on a one-symbol list returns exactly one node; the
final branch is unreachable (expand_nodes_length below). -/
def expand (g : Grammar) (lex : Lexicon) (ρ : Nat → Nat) (fuel : Nat)
    (symbol : String) (idx : Nat) :
    Except ExpandErr (DerivationNode × List String × Nat) :=
  match expandList g lex ρ fuel [.str symbol] idx with
  | .error e => .error e
  | .ok (node :: _, toks, idx2) => .ok (node, toks, idx2)
  | .ok ([], _, _) => .error .outOfFuel

/-- The vowel test of _postprocess: the lowered next token is non-empty and
its first character is in "aeiou". -/
def vowelInit (s : String) : Bool :=
  match s.data with
  | [] => false
  | c :: _ => "aeiou".data.contains c

/-- SentenceGenerator._postprocess: single left-to-right pass; a token whose
lowercase form is "a" becomes "an" when the next token (lowercased) starts
with a vowel letter. -/
def postprocess : List String → List String
  | [] => []
  | tok :: rest =>
      (match rest with
       | [] => tok
       | nxt :: _ => if strLower tok = "a" && vowelInit (strLower nxt) then "an" else tok)
      :: postprocess rest

/-- One replacement pass of Python str.replace for a two-character pattern
`a b` replaced by the single character r, scanning left to right without
overlap (" ?" → "?" and " ," → ","). -/
def collapse2 (a b r : Char) : List Char → List Char
  | [] => []
  | [c] => [c]
  | c1 :: c2 :: rest =>
      if c1 = a && c2 = b then r :: collapse2 a b r rest
      else c1 :: collapse2 a b r (c2 :: rest)

/-- Python " ".join: tokens joined by single spaces. -/
def joinSp : List String → String
  | [] => ""
  | [t] => t
  | t :: rest => t ++ " " ++ joinSp rest

/-- Python s.endswith(tuple of ".", "?", "!"): the last character is one of
the three sentence-final punctuation marks. -/
def endsPunct (s : String) : Bool :=
  match s.data.getLast? with
  | some c => c = '.' || c = '?' || c = '!'
  | none => false

/-- SentenceGenerator._linearize: join with spaces, collapse " ?" and " ,",
capitalize the first character, ensure terminal punctuation.  The inner
empty-string branch is where the source would raise IndexError (only possible
when every token is the empty string). -/
def linearize (tokens : List String) : String :=
  match tokens with
  | [] => ""
  | _ =>
      let s1 := joinSp tokens
      let s2 := String.mk (collapse2 ' ' '?' '?' s1.data)
      let s3 := String.mk (collapse2 ' ' ',' ',' s2.data)
      match s3.data with
      | [] => ""
      | c :: cs =>
          let s4 := String.mk (c.toUpper :: cs)
          if endsPunct s4 then s4 else s4 ++ "."

/-- The token-and-tree part of SentenceGenerator.generate(): expand the start
symbol, then post-process the token sequence. -/
def generateCore (g : Grammar) (lex : Lexicon) (ρ : Nat → Nat) (fuel : Nat) :
    Except ExpandErr (DerivationNode × List String) :=
  match expand g lex ρ fuel g.start 0 with
  | .error e => .error e
  | .ok (tree, toks, _) => .ok (tree, postprocess toks)

/-- The valence fold of generate(): starting from EmotionField 0.0, combine
with from_word(token.lower(), lexicon) for each post-processed token in
order. -/
def sentenceField (tanh : ℝ → ℝ) (lex : Lexicon) (toks : List String) : EmotionField :=
  toks.foldl (fun f t => f.combine tanh (EmotionField.from_word (strLower t) lex)) ⟨0⟩

/-- SentenceGenerator.generate(): the (text, tree, field-valence) triple. -/
def generate (tanh : ℝ → ℝ) (g : Grammar) (lex : Lexicon) (ρ : Nat → Nat)
    (fuel : Nat) : Except ExpandErr (String × DerivationNode × ℝ) :=
  match generateCore g lex ρ fuel with
  | .error e => .error e
  | .ok (tree, toks) => .ok (linearize toks, tree, (sentenceField tanh lex toks).valence)

/-- The observable output of one seeded run, for the reproducibility claim:
rendered text, pretty-printed tree (at printing depth pfuel), and valence. -/
def outputTriple (tanh : ℝ → ℝ) (g : Grammar) (lex : Lexicon) (ρ : Nat → Nat)
    (fuel pfuel : Nat) : Option (String × String × ℝ) :=
  match generate tanh g lex ρ fuel with
  | .error _ => none
  | .ok (text, tree, v) => some (text, pretty pfuel tree, v)

/-- Substring containment (Python `needle in hay`), stated on character
lists. -/
def strContains (hay needle : String) : Prop :=
  ∃ pre post, hay.data = pre ++ needle.data ++ post

/- ------------------------------------------------------------------
Helper lemmas
------------------------------------------------------------------ -/

theorem lookup_dictSet {β : Type} (l : List (String × β)) (k : String) (v : β) :
    (dictSet l k v).lookup k = some v := by
  induction l with
  | nil => simp [dictSet, List.lookup]
  | cons hd tl ih =>
      obtain ⟨k1, v1⟩ := hd
      by_cases h : k1 = k
      · simp [dictSet, h, List.lookup]
      · have hb : (k == k1) = false := by
          simp only [beq_eq_false_iff_ne, ne_eq]
          exact fun e => h e.symm
        simpa [dictSet, h, List.lookup, hb] using ih

theorem getD_mem {α : Type} (l : List α) (i : Nat) (d : α) (h : i < l.length) :
    l.getD i d ∈ l := by
  rw [List.getD_eq_getElem l d h]
  exact List.getElem_mem h

theorem mem_words_for_pos {lex : Lexicon} {p w : String}
    (h : w ∈ lex.words_for_pos p) : ∃ e, (w, e) ∈ lex.entries := by
  unfold Lexicon.words_for_pos at h
  obtain ⟨⟨w', e⟩, hmem, hw⟩ := List.mem_map.1 h
  exact ⟨e, by simpa [← hw] using (List.mem_filter.1 hmem).1⟩

/- ------------------------------------------------------------------
C8 — third_person_singular coincides with pluralize
------------------------------------------------------------------ -/

/-- C8: for every input string, thirdPersonSingular equals pluralize — the
two source functions implement the identical suffix rule (y-after-consonant →
ies; endings s/x/z/ch/sh → +es; otherwise → +s). -/
theorem claim8_third_person_singular_eq_pluralize :
    ∀ s : String, third_person_singular s = pluralize s :=
  fun _ => rfl

/- ------------------------------------------------------------------
C9 — Lexicon.add normalizes and stores; the "scientist" example
------------------------------------------------------------------ -/

/-- C9: Lexicon.add stores the entry under the lowercased word with the
uppercased part-of-speech (overwriting any previous entry for that key), and
on the freshly constructed lexicon "scientist" is absent from the NOUN words
while after add("scientist","NOUN",0.3) it occurs there exactly once. -/
theorem claim9_lexicon_add :
    (∀ (lex : Lexicon) (w p : String) (pol : ℚ),
        (lex.add w p pol).get w = some ⟨strUpper p, pol⟩) ∧
    ((seedLexicon.words_for_pos "NOUN").contains "scientist" = false) ∧
    (((seedLexicon.add "scientist" "NOUN" 0.3).words_for_pos "NOUN").count "scientist" = 1) := by
  refine ⟨fun lex w p pol => ?_, by decide, by decide⟩
  unfold Lexicon.add Lexicon.get
  exact lookup_dictSet lex.entries (strLower w) ⟨strUpper p, pol⟩

/- ------------------------------------------------------------------
C5 — _choose_for_pos slot resolution
------------------------------------------------------------------ -/

/-- C5 counterexample: the claim says every slot other than the six it lists
(P, AUX, WH, NOUN, VERB, ADJ) yields the empty string; but the DET slot —
which is not among the six — resolves to a word of the hard-coded list
the/a/an, here "the", not to the empty string. -/
theorem claim5_counterexample :
    (["<P>", "<AUX>", "<WH>", "<NOUN>", "<VERB>", "<ADJ>"].contains "<DET>") = false ∧
    choose_for_pos seedLexicon (fun _ => 0) 0 "<DET>" = ("the", 1) ∧
    ("the" == "") = false := by
  refine ⟨by decide, rfl, by decide⟩

/-- C5 amended: the closed-class slots P, AUX, WH draw uniformly (one stream
draw indexing the list) from the fixed lists; DET draws uniformly from
the/a/an; NOUN, VERB, ADJ draw uniformly from words_for_pos of the tag with
the single-word fallback cat/see/happy when that list is empty; and any slot
other than these seven yields the empty string without consuming a draw. -/
theorem claim5_amended (lex : Lexicon) (ρ : Nat → Nat) (idx : Nat) :
    choose_for_pos lex ρ idx "<P>" =
      (["with", "without", "near", "against"].getD (ρ idx % 4) "", idx + 1) ∧
    choose_for_pos lex ρ idx "<AUX>" =
      (["does", "did", "will"].getD (ρ idx % 3) "", idx + 1) ∧
    choose_for_pos lex ρ idx "<WH>" =
      (["why", "how", "what", "who"].getD (ρ idx % 4) "", idx + 1) ∧
    choose_for_pos lex ρ idx "<DET>" =
      (["the", "a", "an"].getD (ρ idx % 3) "", idx + 1) ∧
    (lex.words_for_pos "NOUN" = [] →
      choose_for_pos lex ρ idx "<NOUN>" = ("cat", idx + 1)) ∧
    (lex.words_for_pos "NOUN" ≠ [] →
      choose_for_pos lex ρ idx "<NOUN>" =
        ((lex.words_for_pos "NOUN").getD (ρ idx % (lex.words_for_pos "NOUN").length) "",
          idx + 1) ∧
      (choose_for_pos lex ρ idx "<NOUN>").1 ∈ lex.words_for_pos "NOUN") ∧
    (lex.words_for_pos "VERB" = [] →
      choose_for_pos lex ρ idx "<VERB>" = ("see", idx + 1)) ∧
    (lex.words_for_pos "VERB" ≠ [] →
      choose_for_pos lex ρ idx "<VERB>" =
        ((lex.words_for_pos "VERB").getD (ρ idx % (lex.words_for_pos "VERB").length) "",
          idx + 1) ∧
      (choose_for_pos lex ρ idx "<VERB>").1 ∈ lex.words_for_pos "VERB") ∧
    (lex.words_for_pos "ADJ" = [] →
      choose_for_pos lex ρ idx "<ADJ>" = ("happy", idx + 1)) ∧
    (lex.words_for_pos "ADJ" ≠ [] →
      choose_for_pos lex ρ idx "<ADJ>" =
        ((lex.words_for_pos "ADJ").getD (ρ idx % (lex.words_for_pos "ADJ").length) "",
          idx + 1) ∧
      (choose_for_pos lex ρ idx "<ADJ>").1 ∈ lex.words_for_pos "ADJ") ∧
    (∀ slot : String,
      (["<P>", "<AUX>", "<WH>", "<DET>", "<NOUN>", "<VERB>", "<ADJ>"].contains slot) = false →
      choose_for_pos lex ρ idx slot = ("", idx)) := by
  have hpick : ∀ (w : String) (ws : List String),
      (orElse (w :: ws) ["x"]).getD (ρ idx % (orElse (w :: ws) ["x"]).length) "" ∈ w :: ws := by
    intro w ws
    have hlen : ρ idx % (w :: ws).length < (w :: ws).length :=
      Nat.mod_lt _ (by simp)
    simpa [orElse] using getD_mem (w :: ws) _ "" hlen
  refine ⟨rfl, rfl, rfl, rfl, ?_, ?_, ?_, ?_, ?_, ?_, ?_⟩
  · intro h
    simp [choose_for_pos, functional_words, List.lookup, randChoice, h, orElse, Nat.mod_one]
  · intro h
    obtain ⟨w, ws, hws⟩ : ∃ w ws, lex.words_for_pos "NOUN" = w :: ws := by
      cases hc : lex.words_for_pos "NOUN" with
      | nil => exact absurd hc h
      | cons a l => exact ⟨a, l, rfl⟩
    constructor
    · simp [choose_for_pos, functional_words, List.lookup, randChoice, hws, orElse]
    · have := hpick w ws
      simp only [choose_for_pos, functional_words, List.lookup, randChoice, hws]
      simpa [orElse, hws] using this
  · intro h
    simp [choose_for_pos, functional_words, List.lookup, randChoice, h, orElse, Nat.mod_one]
  · intro h
    obtain ⟨w, ws, hws⟩ : ∃ w ws, lex.words_for_pos "VERB" = w :: ws := by
      cases hc : lex.words_for_pos "VERB" with
      | nil => exact absurd hc h
      | cons a l => exact ⟨a, l, rfl⟩
    constructor
    · simp [choose_for_pos, functional_words, List.lookup, randChoice, hws, orElse]
    · have := hpick w ws
      simp only [choose_for_pos, functional_words, List.lookup, randChoice, hws]
      simpa [orElse, hws] using this
  · intro h
    simp [choose_for_pos, functional_words, List.lookup, randChoice, h, orElse, Nat.mod_one]
  · intro h
    obtain ⟨w, ws, hws⟩ : ∃ w ws, lex.words_for_pos "ADJ" = w :: ws := by
      cases hc : lex.words_for_pos "ADJ" with
      | nil => exact absurd hc h
      | cons a l => exact ⟨a, l, rfl⟩
    constructor
    · simp [choose_for_pos, functional_words, List.lookup, randChoice, hws, orElse]
    · have := hpick w ws
      simp only [choose_for_pos, functional_words, List.lookup, randChoice, hws]
      simpa [orElse, hws] using this
  · intro slot hs
    simp only [List.contains, List.elem_eq_mem, decide_eq_false_iff_not, List.mem_cons,
      List.mem_singleton, not_or] at hs
    obtain ⟨h1, h2, h3, h4, h5, h6, h7⟩ := hs
    simp only [List.not_mem_nil, or_false] at h7
    simp [choose_for_pos, functional_words, List.lookup,
      show (slot == "<P>") = false from by simpa using h1,
      show (slot == "<AUX>") = false from by simpa using h2,
      show (slot == "<WH>") = false from by simpa using h3,
      h4, h5, h6, h7]

/-- C5 witness: concrete instances of claim5_amended — the empty lexicon
falls back to "cat" for a NOUN slot, the seed lexicon draws a NOUN from its
noun list, a VERB slot resolves by one uniform draw to verb index 0 ("see")
advancing the stream by one, an ADJ slot resolves to adjective index 2
("brave") advancing the stream by one, and the unknown slot "<XYZ>" yields
the empty string with no draw consumed. -/
theorem claim5_amended_witness :
    choose_for_pos ⟨[]⟩ (fun _ => 0) 0 "<NOUN>" = ("cat", 1) ∧
    (choose_for_pos seedLexicon (fun _ => 0) 5 "<NOUN>").1 ∈
      seedLexicon.words_for_pos "NOUN" ∧
    choose_for_pos seedLexicon (fun _ => 0) 7 "<VERB>" = ("see", 8) ∧
    choose_for_pos seedLexicon (fun _ => 2) 4 "<ADJ>" = ("brave", 5) ∧
    choose_for_pos seedLexicon (fun _ => 0) 3 "<XYZ>" = ("", 3) := by
  refine ⟨(claim5_amended ⟨[]⟩ (fun _ => 0) 0).2.2.2.2.1 (by decide),
    ((claim5_amended seedLexicon (fun _ => 0) 5).2.2.2.2.2.1 (by decide)).2,
    (((claim5_amended seedLexicon (fun _ => 0) 7).2.2.2.2.2.2.2.1 (by decide)).1).trans
      (by decide),
    (((claim5_amended seedLexicon (fun _ => 2) 4).2.2.2.2.2.2.2.2.2.1 (by decide)).1).trans
      (by decide),
    (claim5_amended seedLexicon (fun _ => 0) 3).2.2.2.2.2.2.2.2.2.2 "<XYZ>" (by decide)⟩

/- ------------------------------------------------------------------
Shared postprocess lemmas (used by C6, C10 and the C2 development)
------------------------------------------------------------------ -/

theorem postprocess_length (toks : List String) :
    (postprocess toks).length = toks.length := by
  induction toks with
  | nil => rfl
  | cons t rest ih => simpa [postprocess] using ih

theorem postprocess_getD (toks : List String) (i : Nat) :
    (postprocess toks).getD i "" =
      (match toks.drop i with
       | [] => ""
       | tok :: rest =>
          match rest with
          | [] => tok
          | nxt :: _ => if strLower tok = "a" && vowelInit (strLower nxt) then "an" else tok) := by
  induction toks generalizing i with
  | nil => simp [postprocess]
  | cons t rest ih =>
      cases i with
      | zero => simp [postprocess]
      | succ j => simpa [postprocess] using ih j

/- ------------------------------------------------------------------
C6 — the a/an rewrite of _postprocess
------------------------------------------------------------------ -/

/-- C6: in the post-processing pass, a token whose lowercase form is "a" with
a successor token is rewritten to "an" exactly when the successor starts with
a vowel letter (checked case-insensitively), and is left unchanged when it
does not. -/
theorem claim6_postprocess_a_an (toks : List String) (i : Nat)
    (hlt : i + 1 < toks.length)
    (ha : strLower (toks.getD i "") = "a") :
    (vowelInit (strLower (toks.getD (i + 1) "")) = true →
      (postprocess toks).getD i "" = "an") ∧
    (vowelInit (strLower (toks.getD (i + 1) "")) = false →
      (postprocess toks).getD i "" = toks.getD i "") := by
  obtain ⟨tok, rest, hdrop⟩ : ∃ tok rest, toks.drop i = tok :: rest := by
    cases hd : toks.drop i with
    | nil =>
        have := List.drop_eq_nil_iff.1 hd
        omega
    | cons a l => exact ⟨a, l, rfl⟩
  obtain ⟨nxt, rest2, hrest⟩ : ∃ nxt rest2, rest = nxt :: rest2 := by
    cases hr : rest with
    | nil =>
        have hlen := congrArg List.length hdrop
        rw [List.length_drop, hr] at hlen
        simp at hlen
        omega
    | cons a l => exact ⟨a, l, rfl⟩
  have hget : toks.getD i "" = tok := by
    have : toks.getD i "" = (toks.drop i).getD 0 "" := by
      rw [List.getD_eq_getElem?_getD, List.getD_eq_getElem?_getD,
        List.getElem?_drop, Nat.add_zero]
    rw [this, hdrop]
    rfl
  have hgetn : toks.getD (i + 1) "" = nxt := by
    have : toks.getD (i + 1) "" = (toks.drop i).getD 1 "" := by
      rw [List.getD_eq_getElem?_getD, List.getD_eq_getElem?_getD,
        List.getElem?_drop, Nat.add_comm]
    rw [this, hdrop, hrest]
    rfl
  rw [hget] at ha
  constructor
  · intro hv
    rw [hgetn] at hv
    rw [postprocess_getD, hdrop, hrest]
    simp [ha, hv]
  · intro hv
    rw [hgetn] at hv
    rw [postprocess_getD, hdrop, hrest, hget]
    simp [ha, hv]

/-- C6 witness: on the token list a-angry (vowel successor) position 0
becomes "an"; on a-cat (consonant successor) it stays "a". -/
theorem claim6_postprocess_a_an_witness :
    (postprocess ["a", "angry"]).getD 0 "" = "an" ∧
    (postprocess ["a", "cat"]).getD 0 "" = "a" := by
  refine ⟨(claim6_postprocess_a_an ["a", "angry"] 0 (by decide) (by decide)).1 (by decide),
    (claim6_postprocess_a_an ["a", "cat"] 0 (by decide) (by decide)).2 (by decide)⟩

/- ------------------------------------------------------------------
C10 — _postprocess is a frame-preserving rewrite
------------------------------------------------------------------ -/

/-- C10: post-processing preserves the length of the token sequence, returns
every position unchanged unless that position holds a case-insensitive "a"
whose immediate successor starts with a vowel letter, and in particular never
rewrites a token in the final position. -/
theorem claim10_postprocess_frame (toks : List String) :
    (postprocess toks).length = toks.length ∧
    (∀ i : Nat,
      ¬(strLower (toks.getD i "") = "a" ∧ i + 1 < toks.length ∧
          vowelInit (strLower (toks.getD (i + 1) "")) = true) →
      (postprocess toks).getD i "" = toks.getD i "") ∧
    (∀ i : Nat, i + 1 = toks.length →
      (postprocess toks).getD i "" = toks.getD i "") := by
  have hmain : ∀ i : Nat,
      ¬(strLower (toks.getD i "") = "a" ∧ i + 1 < toks.length ∧
          vowelInit (strLower (toks.getD (i + 1) "")) = true) →
      (postprocess toks).getD i "" = toks.getD i "" := by
    intro i hni
    cases hd : toks.drop i with
    | nil =>
        have hge := List.drop_eq_nil_iff.1 hd
        have h1 : (postprocess toks).getD i "" = "" := by
          apply List.getD_eq_default
          rw [postprocess_length]
          omega
        have h2 : toks.getD i "" = "" := by
          apply List.getD_eq_default
          omega
        rw [h1, h2]
    | cons tok rest =>
        have hget : toks.getD i "" = tok := by
          have : toks.getD i "" = (toks.drop i).getD 0 "" := by
            rw [List.getD_eq_getElem?_getD, List.getD_eq_getElem?_getD,
              List.getElem?_drop, Nat.add_zero]
          rw [this, hd]
          rfl
        have hilt : i < toks.length := by
          have := congrArg List.length hd
          rw [List.length_drop] at this
          simp at this
          omega
        cases hr : rest with
        | nil =>
            rw [postprocess_getD, hd, hr, hget]
        | cons nxt rest2 =>
            have hnlt : i + 1 < toks.length := by
              have := congrArg List.length hd
              rw [List.length_drop, hr] at this
              simp at this
              omega
            have hgetn : toks.getD (i + 1) "" = nxt := by
              have : toks.getD (i + 1) "" = (toks.drop i).getD 1 "" := by
                rw [List.getD_eq_getElem?_getD, List.getD_eq_getElem?_getD,
                  List.getElem?_drop, Nat.add_comm]
              rw [this, hd, hr]
              rfl
            rw [postprocess_getD, hd, hr, hget]
            by_cases hA : strLower tok = "a"
            · have hv : vowelInit (strLower nxt) = false := by
                rcases Bool.eq_false_or_eq_true (vowelInit (strLower nxt)) with ht | hf
                · exact absurd ⟨by rw [hget]; exact hA, hnlt, by rw [hgetn]; exact ht⟩ hni
                · exact hf
              simp [hA, hv]
            · simp [hA]
  refine ⟨postprocess_length toks, hmain, fun i hi => hmain i ?_⟩
  rintro ⟨-, hlt, -⟩
  omega

/-- C10 witness: claim10_postprocess_frame applied to a concrete list —
position 1 ("a" before the consonant-initial "cat") and the final position
are unchanged. -/
theorem claim10_postprocess_frame_witness :
    (postprocess ["see", "a", "cat"]).getD 1 "" = "a" ∧
    (postprocess ["see", "a", "cat"]).getD 2 "" = "cat" := by
  refine ⟨(claim10_postprocess_frame ["see", "a", "cat"]).2.1 1 (by decide),
    (claim10_postprocess_frame ["see", "a", "cat"]).2.2 2 (by decide)⟩

/- ------------------------------------------------------------------
C7 — malformed symbols are a fatal error, unreachable on well-formed rules
------------------------------------------------------------------ -/

theorem lookup_mem {β : Type} {l : List (String × β)} {k : String} {v : β}
    (h : l.lookup k = some v) : (k, v) ∈ l := by
  induction l with
  | nil => simp [List.lookup] at h
  | cons hd tl ih =>
      obtain ⟨k1, v1⟩ := hd
      by_cases hk : k = k1
      · subst hk
        simp [List.lookup] at h
        simp [h]
      · have hb : (k == k1) = false := by
          simp only [beq_eq_false_iff_ne, ne_eq]
          exact hk
        rw [List.lookup, hb] at h
        exact List.mem_cons_of_mem _ (ih h)

/-- A rule set is well formed when no right-hand side contains a symbol that
is neither a nonterminal or literal string nor a POS-slot tuple. -/
def wellFormedSyms (g : Grammar) : Prop :=
  ∀ p ∈ g.rules, ∀ alt ∈ p.2.rhs, ∀ s ∈ alt, s ≠ Symbol.other

/-- C7: expansion aborts with the ValueError-modelling diagnostic the moment
it encounters a symbol that is neither a string nor a POS-slot tuple; and for
a well-formed rule set (and a symbol sequence without such symbols) that
error is unreachable, whatever the lexicon, stream, and fuel. -/
theorem claim7_unknown_symbol_fatal :
    (∀ (g : Grammar) (lex : Lexicon) (ρ : Nat → Nat) (fuel : Nat)
        (rest : List Symbol) (idx : Nat),
      expandList g lex ρ (fuel + 1) (Symbol.other :: rest) idx =
        .error .unknownSymbolType) ∧
    (∀ g : Grammar, wellFormedSyms g →
      ∀ (lex : Lexicon) (ρ : Nat → Nat) (fuel : Nat) (l : List Symbol) (idx : Nat),
        (∀ s ∈ l, s ≠ Symbol.other) →
        expandList g lex ρ fuel l idx ≠ .error .unknownSymbolType) := by
  refine ⟨fun g lex ρ fuel rest idx => rfl, fun g hwf lex ρ fuel => ?_⟩
  induction fuel with
  | zero => intro l idx hl h; simp [expandList] at h
  | succ n ih =>
      intro l idx hl h
      match l with
      | [] => simp [expandList] at h
      | .slot tag attrs :: rest =>
          rw [expandList] at h
          revert h
          cases hsub : expandList g lex ρ n rest (choose_for_pos lex ρ idx tag).2 with
          | error e =>
              intro h
              simp only [hsub] at h
              have : e = ExpandErr.unknownSymbolType := by
                simpa using h
              exact ih rest _ (fun s hs => hl s (List.mem_cons_of_mem _ hs)) (this ▸ hsub)
          | ok r => intro h; simp [hsub] at h
      | .str s :: rest =>
          rw [expandList] at h
          revert h
          cases hrule : g.lookupRule s with
          | none =>
              cases hsub : expandList g lex ρ n rest idx with
              | error e =>
                  intro h
                  simp only [hrule, hsub] at h
                  have : e = ExpandErr.unknownSymbolType := by
                    simpa using h
                  exact ih rest _ (fun s2 hs => hl s2 (List.mem_cons_of_mem _ hs)) (this ▸ hsub)
              | ok r => intro h; simp [hrule, hsub] at h
          | some r =>
              match hrhs : r.rhs with
              | [] => intro h; simp [hrule, hrhs] at h
              | alt0 :: alts =>
                  have hchoice : ∀ s2 ∈ (alt0 :: alts).getD (ρ idx % (alt0 :: alts).length) [],
                      s2 ≠ Symbol.other := by
                    intro s2 hs2
                    have hmem : (alt0 :: alts).getD (ρ idx % (alt0 :: alts).length) [] ∈
                        alt0 :: alts := by
                      apply getD_mem
                      apply Nat.mod_lt
                      simp
                    rw [← hrhs] at hmem hs2
                    exact hwf (s, r) (lookup_mem hrule) _ hmem s2 hs2
                  cases hsub : expandList g lex ρ n
                      ((alt0 :: alts).getD (ρ idx % (alt0 :: alts).length) []) (idx + 1) with
                  | error e =>
                      intro h
                      simp only [hrule, hrhs, ← List.getD_eq_getElem?_getD, hsub] at h
                      have : e = ExpandErr.unknownSymbolType := by
                        simpa using h
                      exact ih _ _ hchoice (this ▸ hsub)
                  | ok rc =>
                      obtain ⟨nodes1, toks1, idx2⟩ := rc
                      cases hsub2 : expandList g lex ρ n rest idx2 with
                      | error e =>
                          intro h
                          simp only [hrule, hrhs, ← List.getD_eq_getElem?_getD,
                            hsub, hsub2] at h
                          have : e = ExpandErr.unknownSymbolType := by
                            simpa using h
                          exact ih rest _ (fun s2 hs => hl s2 (List.mem_cons_of_mem _ hs))
                            (this ▸ hsub2)
                      | ok r2 =>
                          intro h
                          simp only [hrule, hrhs, ← List.getD_eq_getElem?_getD,
                            hsub, hsub2] at h
                          simp at h
      | .other :: rest =>
          exact absurd rfl (hl .other (List.mem_cons_self _ _))

/-- C7 witness: with the (well-formed) seed grammar, expanding the start
symbol never yields the unknown-symbol error, at a concrete fuel; and a rule
list containing a malformed symbol aborts immediately. -/
theorem claim7_witness :
    expandList seedGrammar seedLexicon (fun _ => 0) 20 [.str "S"] 0 ≠
      .error .unknownSymbolType ∧
    expandList seedGrammar seedLexicon (fun _ => 0) 20 [.other] 0 =
      .error .unknownSymbolType := by
  constructor
  · exact claim7_unknown_symbol_fatal.2 seedGrammar
      (by unfold wellFormedSyms; decide) seedLexicon
      (fun _ => 0) 20 [.str "S"] 0 (by decide)
  · exact claim7_unknown_symbol_fatal.1 seedGrammar seedLexicon (fun _ => 0) 19 [] 0

/- ------------------------------------------------------------------
C4 — valence is the strict left fold in token order
------------------------------------------------------------------ -/

/-- C4: the valence generate() returns is exactly the left fold of combine,
starting from the neutral field 0.0, over the post-processed tokens in token
order: for a three-token sequence it is tanh(tanh(tanh(0+p1)+p2)+p3) for any
tanh whatsoever (so no other grouping or averaging can coincide with it), and
a token absent from the lexicon contributes polarity 0.0. -/
theorem claim4_valence_left_fold (tanh : ℝ → ℝ) (g : Grammar) (lex : Lexicon)
    (ρ : Nat → Nat) (fuel : Nat) (tree : DerivationNode) (toks : List String)
    (h : generateCore g lex ρ fuel = .ok (tree, toks)) :
    generate tanh g lex ρ fuel =
      .ok (linearize toks, tree, (sentenceField tanh lex toks).valence) ∧
    sentenceField tanh lex toks =
      toks.foldl (fun f t => f.combine tanh (EmotionField.from_word (strLower t) lex)) ⟨0⟩ ∧
    (∀ t1 t2 t3 : String, toks = [t1, t2, t3] →
      (sentenceField tanh lex toks).valence =
        tanh (tanh (tanh (0 + (EmotionField.from_word (strLower t1) lex).valence) +
            (EmotionField.from_word (strLower t2) lex).valence) +
          (EmotionField.from_word (strLower t3) lex).valence)) ∧
    (∀ t : String, lex.get (strLower t) = none →
      (EmotionField.from_word (strLower t) lex).valence = 0) := by
  refine ⟨?_, rfl, ?_, ?_⟩
  · rw [generate, h]
  · intro t1 t2 t3 ht
    subst ht
    rfl
  · intro t hnone
    simp [EmotionField.from_word, hnone]

/-- The derivation tree of the run used as the C4 witness. -/
def tree4 : DerivationNode :=
  .mk "S"
    [.mk "IMP"
      [.mk "V" [.mk "<VERB>" [] (some "chase")] none,
       .mk "NP"
         [.mk "DET" [.mk "<DET>" [] (some "a")] none,
          .mk "N" [.mk "<NOUN>" [] (some "war")] none] none] none] none

/-- The random stream of the C4 witness run (S→IMP, IMP→V NP, V→chase,
NP→DET N, DET→a, N→war: three tokens). -/
def rho4 : Nat → Nat := fun i => [2, 0, 0, 2, 0, 0, 1, 0, 3].getD i 0

/-- C4 witness: the seed-grammar run under rho4 produces the three tokens
chase/a/war, and claim4_valence_left_fold instantiated there (with the
identity in place of tanh) gives the nested left-fold value. -/
theorem claim4_witness :
    generate id seedGrammar seedLexicon rho4 20 =
      .ok (linearize ["chase", "a", "war"], tree4,
        (sentenceField id seedLexicon ["chase", "a", "war"]).valence) ∧
    (sentenceField id seedLexicon ["chase", "a", "war"]).valence =
      id (id (id (0 + (EmotionField.from_word (strLower "chase") seedLexicon).valence) +
          (EmotionField.from_word (strLower "a") seedLexicon).valence) +
        (EmotionField.from_word (strLower "war") seedLexicon).valence) := by
  have h : generateCore seedGrammar seedLexicon rho4 20 =
      .ok (tree4, ["chase", "a", "war"]) := rfl
  exact ⟨(claim4_valence_left_fold id seedGrammar seedLexicon rho4 20 tree4
      ["chase", "a", "war"] h).1,
    (claim4_valence_left_fold id seedGrammar seedLexicon rho4 20 tree4
      ["chase", "a", "war"] h).2.2.1 "chase" "a" "war" rfl⟩

/- ------------------------------------------------------------------
C3 — determinism / reproducibility
------------------------------------------------------------------ -/

/-- C3: two generators with the same random stream (the same seed), the same
grammar contents, and the same lexicon contents produce the identical
(text, pretty-printed tree, valence) triple, and a repeated run of the same
generator yields the byte-identical triple. -/
theorem claim3_determinism (tanh : ℝ → ℝ) (g1 g2 : Grammar) (lex1 lex2 : Lexicon)
    (ρ1 ρ2 : Nat → Nat) (fuel pfuel : Nat)
    (hrules : g1.rules = g2.rules) (hstart : g1.start = g2.start)
    (hentries : lex1.entries = lex2.entries) (hstream : ρ1 = ρ2) :
    outputTriple tanh g1 lex1 ρ1 fuel pfuel = outputTriple tanh g2 lex2 ρ2 fuel pfuel ∧
    outputTriple tanh g1 lex1 ρ1 fuel pfuel = outputTriple tanh g1 lex1 ρ1 fuel pfuel := by
  cases g1; cases g2; cases lex1; cases lex2
  simp only at hrules hstart hentries
  subst hrules; subst hstart; subst hentries; subst hstream
  exact ⟨rfl, rfl⟩

/-- C3 witness: claim3_determinism at the seed grammar, the seed lexicon, and
one concrete stream. -/
theorem claim3_determinism_witness :
    outputTriple Real.tanh seedGrammar seedLexicon (fun _ => 0) 20 12 =
      outputTriple Real.tanh seedGrammar seedLexicon (fun _ => 0) 20 12 :=
  (claim3_determinism Real.tanh seedGrammar seedGrammar seedLexicon seedLexicon
    (fun _ => 0) (fun _ => 0) 20 12 rfl rfl rfl rfl).1

/- ------------------------------------------------------------------
C1 — the seed grammar does NOT have finite-depth expansion: the rule
"?" → [["?"]] makes "?" a nonterminal whose only alternative is itself,
so any derivation choosing S → Q (both Q alternatives end in "?")
recurses forever.
------------------------------------------------------------------ -/

/-- Expanding the nonterminal "?" of the seed grammar never completes: its
only alternative is the symbol "?" itself, which Grammar.has classifies as a
nonterminal again, so every fuel bound is exhausted — for every lexicon,
every stream, and every stream position. -/
theorem qmark_loop (lex : Lexicon) (ρ : Nat → Nat) :
    ∀ (n idx : Nat), expandList seedGrammar lex ρ n [.str "?"] idx = .error .outOfFuel := by
  intro n
  induction n with
  | zero => intro idx; rfl
  | succ n ih =>
      intro idx
      rw [expandList]
      simp [show Grammar.lookupRule seedGrammar "?" = some ⟨"?", [[Symbol.str "?"]]⟩ from rfl,
        Nat.mod_one, ih]

/-- C1: generation on the seed grammar does not always terminate.  The
nonterminal "?" expands into itself with no terminal-producing branch (first
conjunct: for any lexicon, stream, position, and fuel the expansion of "?"
runs out of fuel), and the self-loop is reached from the start symbol: under
the stream that always draws 1 — i.e. a seeding whose first draw picks the
alternative Q of S — expansion of "S" exhausts every fuel bound m + 10
(second conjunct), so generate() never returns on that stream. -/
theorem claim1_seed_expansion_not_terminating :
    (∀ (lex : Lexicon) (ρ : Nat → Nat) (n idx : Nat),
      expandList seedGrammar lex ρ n [.str "?"] idx = .error .outOfFuel) ∧
    (∀ m : Nat,
      expandList seedGrammar seedLexicon (fun _ => 1) (m + 10) [.str "S"] 0 =
        .error .outOfFuel) := by
  refine ⟨fun lex ρ n idx => qmark_loop lex ρ n idx, fun m => ?_⟩
  have hq : ∀ k idx, expandList seedGrammar seedLexicon (fun _ => 1) k [.str "?"] idx =
      .error .outOfFuel := fun k idx => qmark_loop seedLexicon (fun _ => 1) k idx
  show expandList seedGrammar seedLexicon (fun _ => 1)
    ((((((((((m+1)+1)+1)+1)+1)+1)+1)+1)+1)+1) [.str "S"] 0 = .error .outOfFuel
  simp only [expandList, hq,
    show Grammar.lookupRule seedGrammar "S" =
      some ⟨"S", [[.str "CLAUSE"], [.str "Q"], [.str "IMP"]]⟩ from rfl,
    show Grammar.lookupRule seedGrammar "Q" =
      some ⟨"Q", [[.str "AUX", .str "NP", .str "V", .str "NP", .str "?"],
        [.str "WH", .str "V", .str "NP", .str "?"]]⟩ from rfl,
    show Grammar.lookupRule seedGrammar "WH" = some ⟨"WH", [[.slot "<WH>" []]]⟩ from rfl,
    show Grammar.lookupRule seedGrammar "V" = some ⟨"V", [[.slot "<VERB>" []]]⟩ from rfl,
    show Grammar.lookupRule seedGrammar "NP" =
      some ⟨"NP", [[.str "DET", .str "N"], [.str "DET", .str "ADJ", .str "N"],
        [.str "N"]]⟩ from rfl,
    show Grammar.lookupRule seedGrammar "DET" = some ⟨"DET", [[.slot "<DET>" []]]⟩ from rfl,
    show Grammar.lookupRule seedGrammar "ADJ" = some ⟨"ADJ", [[.slot "<ADJ>" []]]⟩ from rfl,
    show Grammar.lookupRule seedGrammar "N" = some ⟨"N", [[.slot "<NOUN>" []]]⟩ from rfl,
    show Grammar.lookupRule seedGrammar "?" = some ⟨"?", [[.str "?"]]⟩ from rfl,
    show ∀ idx, choose_for_pos seedLexicon (fun _ => 1) idx "<WH>" =
      ("how", idx + 1) from fun _ => rfl,
    show ∀ idx, choose_for_pos seedLexicon (fun _ => 1) idx "<VERB>" =
      ("like", idx + 1) from fun _ => rfl,
    show ∀ idx, choose_for_pos seedLexicon (fun _ => 1) idx "<DET>" =
      ("a", idx + 1) from fun _ => rfl,
    show ∀ idx, choose_for_pos seedLexicon (fun _ => 1) idx "<ADJ>" =
      ("sad", idx + 1) from fun _ => rfl,
    show ∀ idx, choose_for_pos seedLexicon (fun _ => 1) idx "<NOUN>" =
      ("dog", idx + 1) from fun _ => rfl,
    List.getD, List.get?, List.length_cons, List.length_nil, Nat.zero_add, Nat.mod_one,
    Nat.mod_self, Option.getD_some]

/- ------------------------------------------------------------------
C2 development: invariants of tokens produced by seed-grammar expansion
------------------------------------------------------------------ -/

/-- The lowercase ASCII letters. -/
def lcLetters : List Char :=
  ['a', 'b', 'c', 'd', 'e', 'f', 'g', 'h', 'i', 'j', 'k', 'l', 'm',
   'n', 'o', 'p', 'q', 'r', 's', 't', 'u', 'v', 'w', 'x', 'y', 'z']

/-- A word is good when it is non-empty and starts with a lowercase ASCII
letter — true of every closed-class word, every hard-coded fallback, and
every word of the seed lexicon. -/
def goodWord (w : String) : Bool :=
  match w.data with
  | [] => false
  | c :: _ => lcLetters.contains c

/-- A lexicon is good when every stored word is good. -/
def goodLex (lex : Lexicon) : Bool :=
  lex.entries.all (fun we => goodWord we.1)

/-- The POS-slot tags _choose_for_pos handles. -/
def knownSlots : List String :=
  ["<DET>", "<NOUN>", "<VERB>", "<ADJ>", "<P>", "<AUX>", "<WH>"]

/-- A symbol the token invariant can see through: a string with a rule in the
grammar, or a known POS slot. -/
def symOk (g : Grammar) : Symbol → Bool
  | .str s => g.has s
  | .slot tag _ => knownSlots.contains tag
  | .other => false

/-- Every rule of the grammar has only non-empty alternatives made of ok
symbols.  Holds for the seed grammar (by computation). -/
def gramOk (g : Grammar) : Bool :=
  g.rules.all (fun p => p.2.rhs.all (fun alt => !alt.isEmpty && alt.all (symOk g)))

theorem getD_of_all_good (ws : List String) (j : Nat) (hne : ws ≠ [])
    (hall : ws.all goodWord = true) :
    goodWord (ws.getD (j % ws.length) "") = true := by
  have hlen : 0 < ws.length := List.length_pos.2 hne
  have hmem : ws.getD (j % ws.length) "" ∈ ws :=
    getD_mem ws _ "" (Nat.mod_lt _ hlen)
  exact List.all_eq_true.1 hall _ hmem

theorem words_for_pos_all_good {lex : Lexicon} (hlex : goodLex lex = true)
    (p : String) : (lex.words_for_pos p).all goodWord = true := by
  rw [List.all_eq_true]
  intro w hw
  obtain ⟨e, he⟩ := mem_words_for_pos hw
  exact List.all_eq_true.1 hlex (w, e) he

/-- Every word a known slot can resolve to is good, for a good lexicon. -/
theorem choose_good {lex : Lexicon} (hlex : goodLex lex = true)
    (ρ : Nat → Nat) (idx : Nat) {tag : String} (htag : tag ∈ knownSlots) :
    goodWord (choose_for_pos lex ρ idx tag).1 = true := by
  have hword : ∀ (ws : List String) (dflt : String), goodWord dflt = true →
      ws.all goodWord = true →
      goodWord ((orElse ws [dflt]).getD (ρ idx % (orElse ws [dflt]).length) "") = true := by
    intro ws dflt hd hall
    match ws with
    | [] => simpa [orElse, Nat.mod_one] using hd
    | w :: rest =>
        exact getD_of_all_good (w :: rest) (ρ idx) (by simp) hall
  simp only [knownSlots, List.mem_cons, List.not_mem_nil, or_false] at htag
  rcases htag with h | h | h | h | h | h | h <;> subst h
  · exact getD_of_all_good ["the", "a", "an"] (ρ idx) (by simp) (by decide)
  · exact hword (lex.words_for_pos "NOUN") "cat" (by decide) (words_for_pos_all_good hlex _)
  · exact hword (lex.words_for_pos "VERB") "see" (by decide) (words_for_pos_all_good hlex _)
  · exact hword (lex.words_for_pos "ADJ") "happy" (by decide) (words_for_pos_all_good hlex _)
  · exact getD_of_all_good ["with", "without", "near", "against"] (ρ idx) (by simp) (by decide)
  · exact getD_of_all_good ["does", "did", "will"] (ρ idx) (by simp) (by decide)
  · exact getD_of_all_good ["why", "how", "what", "who"] (ρ idx) (by simp) (by decide)

/-- Master invariant: on a grammar whose rules are all non-empty sequences of
ok symbols and a good lexicon, every successful expansion of a sequence of ok
symbols yields only good tokens, and at least one token when the sequence is
non-empty. -/
theorem expand_tokens_good (g : Grammar) (lex : Lexicon) (ρ : Nat → Nat)
    (hg : gramOk g = true) (hlex : goodLex lex = true) :
    ∀ (n : Nat) (l : List Symbol) (idx : Nat)
      (nodes : List DerivationNode) (toks : List String) (idx2 : Nat),
      l.all (symOk g) = true →
      expandList g lex ρ n l idx = .ok (nodes, toks, idx2) →
      toks.all goodWord = true ∧ (l ≠ [] → toks ≠ []) := by
  intro n
  induction n with
  | zero => intro l idx nodes toks idx2 _ h; simp [expandList] at h
  | succ n ih =>
      intro l idx nodes toks idx2 hl h
      match l with
      | [] =>
          rw [expandList] at h
          obtain ⟨-, ht, -⟩ := by simpa using h
          subst ht
          exact ⟨rfl, fun hc => absurd rfl hc⟩
      | .slot tag attrs :: rest =>
          have htag : knownSlots.contains tag = true := by
            simpa [symOk] using (List.all_eq_true.1 hl _ (List.mem_cons_self _ _))
          have hrest : rest.all (symOk g) = true := by
            rw [List.all_eq_true]
            exact fun s hs => List.all_eq_true.1 hl s (List.mem_cons_of_mem _ hs)
          rw [expandList] at h
          revert h
          cases hsub : expandList g lex ρ n rest (choose_for_pos lex ρ idx tag).2 with
          | error e => intro h; simp [hsub] at h
          | ok rc =>
              obtain ⟨nodes1, toks1, i2⟩ := rc
              intro h
              simp only [hsub] at h
              obtain ⟨-, ht, -⟩ := by simpa using h
              subst ht
              obtain ⟨hgood1, -⟩ := ih rest _ nodes1 toks1 i2 hrest hsub
              refine ⟨?_, fun _ => by simp⟩
              rw [List.all_cons, hgood1, Bool.and_true]
              exact choose_good hlex ρ idx (by simpa [List.contains] using htag)
      | .str s :: rest =>
          have hhas : g.has s = true := by
            simpa [symOk] using (List.all_eq_true.1 hl _ (List.mem_cons_self _ _))
          have hrest : rest.all (symOk g) = true := by
            rw [List.all_eq_true]
            exact fun s2 hs => List.all_eq_true.1 hl s2 (List.mem_cons_of_mem _ hs)
          obtain ⟨r, hrule⟩ : ∃ r, g.lookupRule s = some r := by
            unfold Grammar.has at hhas
            exact Option.isSome_iff_exists.1 hhas
          rw [expandList] at h
          revert h
          match hrhs : r.rhs with
          | [] => intro h; simp [hrule, hrhs] at h
          | alt0 :: alts =>
              have hmemr : (s, r) ∈ g.rules := lookup_mem hrule
              have haltP := List.all_eq_true.1 (List.all_eq_true.1 hg _ hmemr)
              have hchoiceMem : (alt0 :: alts).getD (ρ idx % (alt0 :: alts).length) [] ∈
                  alt0 :: alts := by
                apply getD_mem
                apply Nat.mod_lt
                simp
              have hchoiceP : (!((alt0 :: alts).getD (ρ idx % (alt0 :: alts).length) []).isEmpty
                  && ((alt0 :: alts).getD (ρ idx % (alt0 :: alts).length) []).all (symOk g)) =
                  true := by
                rw [← hrhs] at hchoiceMem ⊢
                exact haltP _ hchoiceMem
              have hpair := hchoiceP
              rw [Bool.and_eq_true] at hpair
              obtain ⟨hchoiceNE, hchoiceAll⟩ := hpair
              cases hsub : expandList g lex ρ n
                  ((alt0 :: alts).getD (ρ idx % (alt0 :: alts).length) []) (idx + 1) with
              | error e =>
                  intro h
                  simp only [hrule, hrhs, ← List.getD_eq_getElem?_getD, hsub] at h
                  exact Except.noConfusion h
              | ok rc =>
                  obtain ⟨nodes1, toks1, i2⟩ := rc
                  cases hsub2 : expandList g lex ρ n rest i2 with
                  | error e =>
                      intro h
                      simp only [hrule, hrhs, ← List.getD_eq_getElem?_getD, hsub, hsub2] at h
                      exact Except.noConfusion h
                  | ok rc2 =>
                      obtain ⟨nodes2, toks2, i3⟩ := rc2
                      intro h
                      simp only [hrule, hrhs, ← List.getD_eq_getElem?_getD, hsub, hsub2] at h
                      obtain ⟨-, ht, -⟩ := by simpa using h
                      subst ht
                      obtain ⟨hgood1, hne1⟩ := ih _ _ nodes1 toks1 i2 hchoiceAll hsub
                      obtain ⟨hgood2, -⟩ := ih rest _ nodes2 toks2 i3 hrest hsub2
                      have htoks1ne : toks1 ≠ [] := by
                        apply hne1
                        intro hc
                        rw [hc] at hchoiceNE
                        simp at hchoiceNE
                      refine ⟨?_, fun _ => ?_⟩
                      · rw [List.all_append, hgood1, hgood2]
                        rfl
                      · intro hc
                        exact htoks1ne (List.append_eq_nil.1 hc).1
      | .other :: rest =>
          have : symOk g .other = true :=
            List.all_eq_true.1 hl _ (List.mem_cons_self _ _)
          simp [symOk] at this

theorem postprocess_all_good (toks : List String) (hall : toks.all goodWord = true) :
    (postprocess toks).all goodWord = true := by
  induction toks with
  | nil => rfl
  | cons t rest ih =>
      cases rest with
      | nil => simpa [postprocess] using hall
      | cons nxt rest2 =>
          rw [List.all_cons, Bool.and_eq_true] at hall
          rw [show postprocess (t :: nxt :: rest2) =
              (if strLower t = "a" && vowelInit (strLower nxt) then "an" else t) ::
                postprocess (nxt :: rest2) from rfl]
          rw [List.all_cons, Bool.and_eq_true]
          refine ⟨?_, ih hall.2⟩
          by_cases hre : (strLower t = "a" && vowelInit (strLower nxt)) = true
          · simp only [hre, if_true]
            decide
          · simp only [Bool.not_eq_true] at hre
            simp only [hre, Bool.false_eq_true, if_false]
            exact hall.1

/-- A successful expansion of a single string symbol yields exactly a node
for that symbol at the head of the node list. -/
theorem expandList_single_str (g : Grammar) (lex : Lexicon) (ρ : Nat → Nat)
    (n : Nat) (s : String) (idx : Nat) (nodes : List DerivationNode)
    (toks : List String) (idx2 : Nat)
    (h : expandList g lex ρ n [.str s] idx = .ok (nodes, toks, idx2)) :
    ∃ children tk rest2, nodes = .mk s children tk :: rest2 := by
  match n with
  | 0 => simp [expandList] at h
  | n + 1 =>
      rw [expandList] at h
      revert h
      cases hrule : g.lookupRule s with
      | none =>
          cases hsub : expandList g lex ρ n [] idx with
          | error e =>
              intro h
              simp only [hrule, hsub] at h
              exact Except.noConfusion h
          | ok rc =>
              obtain ⟨nodes1, toks1, i2⟩ := rc
              intro h
              simp only [hrule, hsub] at h
              obtain ⟨hn, -, -⟩ := by simpa using h
              exact ⟨[], some s, nodes1, hn.symm⟩
      | some r =>
          match hrhs : r.rhs with
          | [] =>
              intro h
              simp only [hrule, hrhs] at h
              exact Except.noConfusion h
          | alt0 :: alts =>
              cases hsub : expandList g lex ρ n
                  ((alt0 :: alts).getD (ρ idx % (alt0 :: alts).length) []) (idx + 1) with
              | error e =>
                  intro h
                  simp only [hrule, hrhs, ← List.getD_eq_getElem?_getD, hsub] at h
                  exact Except.noConfusion h
              | ok rc =>
                  obtain ⟨nodes1, toks1, i2⟩ := rc
                  cases hsub2 : expandList g lex ρ n [] i2 with
                  | error e =>
                      intro h
                      simp only [hrule, hrhs, ← List.getD_eq_getElem?_getD, hsub, hsub2] at h
                      exact Except.noConfusion h
                  | ok rc2 =>
                      obtain ⟨nodes2, toks2, i3⟩ := rc2
                      intro h
                      simp only [hrule, hrhs, ← List.getD_eq_getElem?_getD, hsub, hsub2] at h
                      obtain ⟨hn, -, -⟩ := by simpa using h
                      exact ⟨nodes1, none, nodes2, hn.symm⟩

/-- A successful generateCore run comes from a successful expansion of the
start symbol whose head node is the returned tree, with the returned tokens
being the post-processed expansion yield. -/
theorem generateCore_ok_destruct (g : Grammar) (lex : Lexicon) (ρ : Nat → Nat)
    (fuel : Nat) (tree : DerivationNode) (toks : List String)
    (h : generateCore g lex ρ fuel = .ok (tree, toks)) :
    ∃ rest toksE idx2,
      expandList g lex ρ fuel [.str g.start] 0 = .ok (tree :: rest, toksE, idx2) ∧
      toks = postprocess toksE := by
  unfold generateCore expand at h
  revert h
  cases hexp : expandList g lex ρ fuel [.str g.start] 0 with
  | error e => intro h; exact Except.noConfusion h
  | ok rc =>
      obtain ⟨nodes, toksE, idx2⟩ := rc
      match nodes with
      | [] => intro h; exact Except.noConfusion h
      | node :: rest =>
          intro h
          obtain ⟨h1, h2⟩ := by simpa using h
          subst h1
          exact ⟨rest, toksE, idx2, rfl, h2.symm⟩

/-- The symbol field of the node built for a string symbol. -/
theorem pretty_symbol_contained (fuel : Nat) (node : DerivationNode) :
    strContains (pretty (fuel + 1) node) node.symbol := by
  obtain ⟨sym, children, tok⟩ := node
  show strContains (pretty (fuel + 1) (.mk sym children tok)) sym
  cases tok with
  | some t =>
      refine ⟨(pad 0).data,
        (" → ".data ++ apos.data ++ t.data ++ apos.data ++ "\n".data) ++
          (prettyList fuel 0 []).data, ?_⟩
      simp [pretty, prettyList, String.data_append, List.append_assoc]
  | none =>
      refine ⟨(pad 0).data,
        ("\n".data ++ (prettyList fuel 1 children).data) ++
          (prettyList fuel 0 []).data, ?_⟩
      simp [pretty, prettyList, String.data_append, List.append_assoc]

theorem collapse2_cons_ne (a b r c : Char) (l : List Char) (hc : c ≠ a) :
    ∃ m, collapse2 a b r (c :: l) = c :: m := by
  cases l with
  | nil => exact ⟨[], rfl⟩
  | cons c2 rest =>
      refine ⟨collapse2 a b r (c2 :: rest), ?_⟩
      rw [collapse2]
      simp [hc]

theorem joinSp_data (t : String) (rest : List String) :
    ∃ m, (joinSp (t :: rest)).data = t.data ++ m := by
  cases rest with
  | nil => exact ⟨[], by simp [joinSp]⟩
  | cons u rest2 =>
      exact ⟨" ".data ++ (joinSp (u :: rest2)).data,
        by simp [joinSp, String.data_append, List.append_assoc]⟩

/-- On a non-empty token list whose words are all good, _linearize returns a
string that starts with the uppercased first letter of the first token (an
uppercase letter) and ends in one of . ? !. -/
theorem linearize_good (toks : List String) (hall : toks.all goodWord = true)
    (hne : toks ≠ []) :
    (∃ c cs, (linearize toks).data = c :: cs ∧ c.isUpper = true) ∧
    (∃ c2, (linearize toks).data.getLast? = some c2 ∧
      (c2 = '.' ∨ c2 = '?' ∨ c2 = '!')) := by
  obtain ⟨t, rest, htoks⟩ : ∃ t rest, toks = t :: rest := by
    cases toks with
    | nil => exact absurd rfl hne
    | cons a l => exact ⟨a, l, rfl⟩
  subst htoks
  have hgt : goodWord t = true := by
    rw [List.all_cons, Bool.and_eq_true] at hall
    exact hall.1
  obtain ⟨c0, t1, ht⟩ : ∃ c0 t1, t.data = c0 :: t1 := by
    cases hd : t.data with
    | nil => rw [goodWord, hd] at hgt; exact absurd hgt (by decide)
    | cons a l => exact ⟨a, l, rfl⟩
  have hc0mem : c0 ∈ lcLetters := by
    rw [goodWord, ht] at hgt
    simpa using hgt
  have hc0sp : c0 ≠ ' ' := by
    intro hsp
    rw [hsp] at hc0mem
    exact absurd hc0mem (by decide)
  have hup : (Char.toUpper c0).isUpper = true := by
    have h26 : ∀ c ∈ lcLetters, (Char.toUpper c).isUpper = true := by decide
    exact h26 c0 hc0mem
  obtain ⟨m1, hm1⟩ := joinSp_data t rest
  have h1 : (joinSp (t :: rest)).data = c0 :: (t1 ++ m1) := by
    rw [hm1, ht]
    rfl
  obtain ⟨m2, hm2⟩ := collapse2_cons_ne ' ' '?' '?' c0 (t1 ++ m1) hc0sp
  obtain ⟨m3, hm3⟩ := collapse2_cons_ne ' ' ',' ',' c0 m2 hc0sp
  have hlin : linearize (t :: rest) =
      (let s4 := String.mk (Char.toUpper c0 :: m3)
       if endsPunct s4 then s4 else s4 ++ ".") := by
    rw [show linearize (t :: rest) =
        (match (String.mk (collapse2 ' ' ',' ','
            (String.mk (collapse2 ' ' '?' '?' (joinSp (t :: rest)).data)).data)).data with
        | [] => ""
        | c :: cs =>
            let s4 := String.mk (c.toUpper :: cs)
            if endsPunct s4 then s4 else s4 ++ ".") from rfl]
    rw [show (String.mk (collapse2 ' ' '?' '?' (joinSp (t :: rest)).data)).data =
        collapse2 ' ' '?' '?' (joinSp (t :: rest)).data from rfl]
    rw [h1, hm2]
    rw [show (String.mk (collapse2 ' ' ',' ',' (c0 :: m2))).data =
        collapse2 ' ' ',' ',' (c0 :: m2) from rfl]
    rw [hm3]
  rw [hlin]
  simp only []
  by_cases hp : endsPunct (String.mk (Char.toUpper c0 :: m3)) = true
  · rw [if_pos hp]
    refine ⟨⟨Char.toUpper c0, m3, rfl, hup⟩, ?_⟩
    rw [endsPunct] at hp
    revert hp
    cases hl : (String.mk (Char.toUpper c0 :: m3)).data.getLast? with
    | none => intro hp; exact absurd hp (by simp)
    | some c2 =>
        intro hp
        refine ⟨c2, rfl, ?_⟩
        have h3 : (c2 = '.' || c2 = '?' || c2 = '!') = true := hp
        have h4 : (c2 = '.' ∨ c2 = '?') ∨ c2 = '!' := by
          simpa [Bool.or_eq_true, decide_eq_true_eq] using h3
        tauto
  · rw [if_neg hp]
    constructor
    · refine ⟨Char.toUpper c0, m3 ++ ".".data, ?_, hup⟩
      rw [String.data_append]
      rfl
    · refine ⟨'.', ?_, Or.inl rfl⟩
      rw [String.data_append]
      rw [show (String.mk (Char.toUpper c0 :: m3)).data = Char.toUpper c0 :: m3 from rfl]
      rw [show (".".data : List Char) = ['.'] from rfl]
      exact List.getLast?_concat _

/- Bounds of Real.tanh, used for the valence range. -/

theorem real_tanh_le_one (x : ℝ) : Real.tanh x ≤ 1 := by
  rw [Real.tanh_eq_sinh_div_cosh]
  rw [div_le_one (Real.cosh_pos x)]
  exact le_of_lt (Real.sinh_lt_cosh x)

theorem neg_one_le_real_tanh (x : ℝ) : -1 ≤ Real.tanh x := by
  rw [Real.tanh_eq_sinh_div_cosh]
  rw [le_div_iff₀ (Real.cosh_pos x)]
  have h := Real.sinh_lt_cosh (-x)
  simp only [Real.sinh_neg, Real.cosh_neg] at h
  linarith

/-- The valence fold stays in [-1, 1] whenever it starts there; with the
neutral start 0.0 the sentence valence is always in [-1, 1]. -/
theorem sentenceField_bounds (lex : Lexicon) (toks : List String) :
    -1 ≤ (sentenceField Real.tanh lex toks).valence ∧
      (sentenceField Real.tanh lex toks).valence ≤ 1 := by
  have gen : ∀ (l : List String) (f : EmotionField),
      -1 ≤ f.valence → f.valence ≤ 1 →
      -1 ≤ (l.foldl (fun f t =>
          f.combine Real.tanh (EmotionField.from_word (strLower t) lex)) f).valence ∧
      (l.foldl (fun f t =>
          f.combine Real.tanh (EmotionField.from_word (strLower t) lex)) f).valence ≤ 1 := by
    intro l
    induction l with
    | nil => intro f h1 h2; exact ⟨h1, h2⟩
    | cons t rest ih =>
        intro f h1 h2
        rw [List.foldl_cons]
        exact ih _ (neg_one_le_real_tanh _) (real_tanh_le_one _)
  exact gen toks ⟨0⟩ (by norm_num) (by norm_num)

/- ------------------------------------------------------------------
C2 — generation well-formedness
------------------------------------------------------------------ -/

/-- C2 counterexample: the claim quantifies over any lexicon, but after
add("1cat","NOUN",0) a run of generate() on the seed grammar returns the
text "1cat see.", whose first character is the digit 1 — not an uppercase
character.  (The stream below draws S→CLAUSE, CLAUSE→NP VP, NP→N, N→"1cat",
VP→V, V→"see".) -/
theorem claim2_counterexample :
    Except.map (fun r => linearize r.2)
      (generateCore seedGrammar (seedLexicon.add "1cat" "NOUN" 0)
        (fun i => [0, 0, 2, 0, 5, 1, 0].getD i 0) 20) = .ok "1cat see." ∧
    ("1cat see.".data.headD ' ').isUpper = false :=
  ⟨rfl, by decide⟩

/-- C2 amended: for every lexicon whose words are all non-empty and start
with a lowercase ASCII letter, whenever generation on the seed grammar
completes (returns at all, at any fuel), the returned text is non-empty with
an uppercase first character and a last character among . ? !, the returned
valence lies in [-1, 1], and the pretty-printed derivation tree contains "S"
as a substring (at any printing depth). -/
theorem claim2_generation_well_formed (lex : Lexicon) (ρ : Nat → Nat) (fuel : Nat)
    (tree : DerivationNode) (toks : List String)
    (hlex : goodLex lex = true)
    (h : generateCore seedGrammar lex ρ fuel = .ok (tree, toks)) :
    generate Real.tanh seedGrammar lex ρ fuel =
      .ok (linearize toks, tree, (sentenceField Real.tanh lex toks).valence) ∧
    (∃ c cs, (linearize toks).data = c :: cs ∧ c.isUpper = true) ∧
    (∃ c2, (linearize toks).data.getLast? = some c2 ∧
      (c2 = '.' ∨ c2 = '?' ∨ c2 = '!')) ∧
    (-1 ≤ (sentenceField Real.tanh lex toks).valence ∧
      (sentenceField Real.tanh lex toks).valence ≤ 1) ∧
    (∀ n : Nat, strContains (pretty (n + 1) tree) "S") := by
  obtain ⟨rest, toksE, idx2, hexp, htoks⟩ := generateCore_ok_destruct _ _ _ _ _ _ h
  rw [show seedGrammar.start = "S" from rfl] at hexp
  obtain ⟨hgoodE, hneE⟩ := expand_tokens_good seedGrammar lex ρ (by decide) hlex
    fuel [Symbol.str "S"] 0 (tree :: rest) toksE idx2 (by decide) hexp
  obtain ⟨children, tk, rest2, hnodes⟩ :=
    expandList_single_str seedGrammar lex ρ fuel "S" 0 (tree :: rest) toksE idx2 hexp
  have htree : tree.symbol = "S" := by
    injection hnodes with h1 h2
    rw [h1]
    rfl
  have htoksEne : toksE ≠ [] := hneE (by simp)
  have hgoodP : toks.all goodWord = true := by
    rw [htoks]
    exact postprocess_all_good toksE hgoodE
  have hneP : toks ≠ [] := by
    rw [htoks]
    intro hc
    have hlen := congrArg List.length hc
    rw [postprocess_length] at hlen
    exact htoksEne (List.length_eq_zero.1 (by simpa using hlen))
  have hlin := linearize_good toks hgoodP hneP
  refine ⟨?_, hlin.1, hlin.2, sentenceField_bounds lex toks, fun n => ?_⟩
  · rw [generate, h]
  · have hpc := pretty_symbol_contained n tree
    rw [htree] at hpc
    exact hpc

/-- The derivation tree of the run used as the C2 witness (the all-zeros
stream: S→CLAUSE, CLAUSE→NP VP, NP→DET N, VP→V NP). -/
def tree2w : DerivationNode :=
  .mk "S"
    [.mk "CLAUSE"
      [.mk "NP"
        [.mk "DET" [.mk "<DET>" [] (some "the")] none,
         .mk "N" [.mk "<NOUN>" [] (some "cat")] none] none,
       .mk "VP"
        [.mk "V" [.mk "<VERB>" [] (some "see")] none,
         .mk "NP"
           [.mk "DET" [.mk "<DET>" [] (some "the")] none,
            .mk "N" [.mk "<NOUN>" [] (some "cat")] none] none] none] none] none

/-- C2 witness: the seed lexicon is good, the all-zeros stream completes at
fuel 20 with the tokens the/cat/see/the/cat, and claim2_generation_well_formed
applied there gives the well-formedness facts for that run. -/
theorem claim2_witness :
    generate Real.tanh seedGrammar seedLexicon (fun _ => 0) 20 =
      .ok (linearize ["the", "cat", "see", "the", "cat"], tree2w,
        (sentenceField Real.tanh seedLexicon ["the", "cat", "see", "the", "cat"]).valence) ∧
    (∃ c cs, (linearize ["the", "cat", "see", "the", "cat"]).data = c :: cs ∧
      c.isUpper = true) ∧
    (∀ n : Nat, strContains (pretty (n + 1) tree2w) "S") := by
  have h : generateCore seedGrammar seedLexicon (fun _ => 0) 20 =
      .ok (tree2w, ["the", "cat", "see", "the", "cat"]) := rfl
  have hc := claim2_generation_well_formed seedLexicon (fun _ => 0) 20 tree2w
    ["the", "cat", "see", "the", "cat"] (by decide) h
  exact ⟨hc.1, hc.2.1, hc.2.2.2.2⟩

end WGG
